import Mathlib

/-!
Verification of the computational core of the chord-finder application
(src/app.rs): fretted-note resolution, the playback-handle cache, the
chord-name normalizer, the fretboard grid, and the chord membership filter.

Strings are embedded as `List Char` (Rust `char` = Unicode scalar value).
The external music library's note-identifier codec is modelled from the
spec (sections 4.1 and 6), since the library itself is an external
collaborator of the repository.
-/

set_option maxHeartbeats 1000000

namespace ChordFinder

/-- Matches the Rust range pattern `'a'..='g'` (code points 97 to 103). -/
def isAG (c : Char) : Bool := 97 ≤ c.toNat && c.toNat ≤ 103

/-- Rust `char::to_ascii_uppercase`: ASCII lowercase letters (97 to 122) are
shifted down by 32; every other character is unchanged. -/
def asciiUppercase (c : Char) : Char :=
  if 97 ≤ c.toNat && c.toNat ≤ 122 then Char.ofNat (c.toNat - 32) else c

/-- Rust `char::to_ascii_lowercase`; used to state that the normalizer only
re-cases characters. -/
def asciiLowercase (c : Char) : Char :=
  if 65 ≤ c.toNat && c.toNat ≤ 90 then Char.ofNat (c.toNat + 32) else c

/-- Modelled from the spec: a note of the external music library is a
(pitch class mod 12, octave) pair (spec, section 3). -/
structure Note where
  pitch : Fin 12
  octave : Nat
deriving DecidableEq, Repr

/-- Modelled from the spec: the external library's `Note::id` is a single set
bit in a 128-bit integer, the pitch class being a "bit position within a
12-wide cyclic field" (spec, sections 4.1 and 6), so the bit position is
`12 * octave + pitch`. -/
def noteId (n : Note) : Nat := 2 ^ (12 * n.octave + n.pitch.val)

/-- The note whose identifier bit position is `k`. -/
def noteOfPos (k : Nat) : Note := ⟨⟨k % 12, Nat.mod_lt _ (by decide)⟩, k / 12⟩

/-- Modelled from the spec: the external library's fallible `Note::from_id`
decoder succeeds exactly on identifiers with a single set bit inside the
representable 128-bit range (spec, sections 4.1 and 6). -/
def fromId (m : Nat) : Option Note :=
  (List.range 128).findSome? fun k => if m = 2 ^ k then some (noteOfPos k) else none

/-- src/app.rs `note_for_fret`: shifts the open string's identifier left by
`fret` bit positions (truncated to u128 as in Rust) and decodes the result.
The source calls `.unwrap()` on the decode, so `none` here models the panic
that occurs when decoding fails. -/
def note_for_fret (string : Note) (fret : Nat) : Option Note :=
  fromId (noteId string * 2 ^ fret % 2 ^ 128)

/-- One semitone up with octave roll-over: the note one fret higher. -/
def semitoneUp (n : Note) : Note :=
  ⟨⟨(n.pitch.val + 1) % 12, Nat.mod_lt _ (by decide)⟩,
    if n.pitch.val = 11 then n.octave + 1 else n.octave⟩

/-- The low open E string of the reference tuning: pitch class 4 (E), octave 2. -/
def lowOpenE : Note := ⟨⟨4, by decide⟩, 2⟩

/-- src/app.rs `MAX_HANDLES` inside `playback_handle_add`. -/
def MAX_HANDLES : Nat := 50

/-- src/app.rs `playback_handle_add`: if the cache already holds at least
`MAX_HANDLES` handles, remove the front (oldest) entry, then append the new
handle at the back. -/
def playback_handle_add {α : Type} (handle : α) (handles : List α) : List α :=
  (if MAX_HANDLES ≤ handles.length then handles.tail else handles) ++ [handle]

/-- The cache obtained by inserting the handles of `xs`, in order, into an
initially empty cache. -/
def cacheRun {α : Type} (xs : List α) : List α :=
  xs.foldl (fun acc h => playback_handle_add h acc) []

/-- src/app.rs `fret_label`. -/
def fret_label (fret : Nat) : String :=
  match fret with
  | 0 => "Open"
  | 3 => "3"
  | 5 => "5"
  | 7 => "7"
  | 9 => "9"
  | 12 => "12"
  | 15 => "15"
  | 17 => "17"
  | 19 => "19"
  | 21 => "21"
  | _ => ""

/-- src/app.rs `MAX_FRET`. -/
def MAX_FRET : Nat := 16

/-- The standard guitar tuning hard-coded in `update`: E4, B3, G3, D3, A2, E2
(pitch classes with C = 0: E = 4, B = 11, G = 7, D = 2, A = 9). -/
def tuning : List Note :=
  [⟨⟨4, by decide⟩, 4⟩, ⟨⟨11, by decide⟩, 3⟩, ⟨⟨7, by decide⟩, 3⟩,
   ⟨⟨2, by decide⟩, 3⟩, ⟨⟨9, by decide⟩, 2⟩, ⟨⟨4, by decide⟩, 2⟩]

/-- The fretboard cells generated in `update`: for each string of the tuning,
one cell per fret in `0..MAX_FRET` (as in the loops of the grid widget). -/
def fretboardGrid : List (List (Option Note)) :=
  tuning.map fun s => (List.range MAX_FRET).map fun f => note_for_fret s f

/-- The enabled test of `fret_note_widget`:
`chord_pitches.is_empty() || chord_pitches.contains(&note.pitch())`. -/
def is_enabled (chord_pitches : List (Fin 12)) (note : Note) : Bool :=
  chord_pitches.isEmpty || chord_pitches.contains note.pitch

/-- First pass of src/app.rs `fix_chord_name`: capitalize the first character
if it is in `'a'..='g'` (the byte slice `&chord[1..]` keeps the rest). -/
def step1 : List Char → List Char
  | [] => []
  | c :: rest => if isAG c then asciiUppercase c :: rest else c :: rest

/-- Second pass of `fix_chord_name`: uppercase each `'a'..='g'` character that
immediately follows a slash; the flag is the loop's `last_was_slash`. -/
def slashAux : Bool → List Char → List Char
  | _, [] => []
  | lastWasSlash, c :: rest =>
      (if lastWasSlash && isAG c then asciiUppercase c else c) :: slashAux (c == '/') rest

/-- Rust `str::replace` specialized to a three-character pattern
`['M', x, y]` with replacement `"maj"`: leftmost-first, non-overlapping,
as in the three `replace` calls of `fix_chord_name`. -/
def replaceMaj (x y : Char) : List Char → List Char
  | a :: b :: c :: rest =>
      if a == 'M' && b == x && c == y then
        'm' :: 'a' :: 'j' :: replaceMaj x y rest
      else
        a :: replaceMaj x y (b :: c :: rest)
  | s => s

/-- src/app.rs `fix_chord_name`: first-letter capitalization, post-slash
capitalization, then `replace("Maj","maj")`, `replace("MAj","maj")`,
`replace("MAJ","maj")`, in that order. -/
def fix_chord_name (s : List Char) : List Char :=
  replaceMaj 'A' 'J' (replaceMaj 'A' 'j' (replaceMaj 'a' 'j' (slashAux false (step1 s))))

/-- Whether the three-character pattern `['M', x, y]` occurs in the list. -/
def occurs3 (x y : Char) : List Char → Bool
  | a :: b :: c :: rest => (a == 'M' && b == x && c == y) || occurs3 x y (b :: c :: rest)
  | _ => false

/-- No `'a'..='g'` character immediately follows a slash (the flag plays the
role of `last_was_slash` for the head of the list). -/
def slashOK : Bool → List Char → Bool
  | _, [] => true
  | lastWasSlash, c :: rest => !(lastWasSlash && isAG c) && slashOK (c == '/') rest

/-- Follows the claim's words (reference for claim C8): uppercase a character
iff it is in `a..g` and it is either the first character or immediately
preceded by a slash; all other characters pass through unchanged. -/
def specCaseRulesAux : Option Char → List Char → List Char
  | _, [] => []
  | prev, c :: rest =>
      (if (prev = none ∨ prev = some '/') ∧ isAG c = true then asciiUppercase c else c)
        :: specCaseRulesAux (some c) rest

/-- Reference function for claim C8, built from the claim's words. -/
def specCaseRules (s : List Char) : List Char := specCaseRulesAux none s

/-- UTF-8 encoded length of a character (Rust `char::len_utf8`). -/
def charUtf8Len (c : Char) : Nat :=
  if c.toNat < 128 then 1
  else if c.toNat < 2048 then 2
  else if c.toNat < 65536 then 3
  else 4

/-- `step1` with the byte slice `&chord[1..]` made explicit: slicing at byte 1
is valid only when the first character is one byte long in UTF-8; `none`
models the slice panic on a multi-byte first character. -/
def step1Checked : List Char → Option (List Char)
  | [] => some []
  | c :: rest =>
      if isAG c then
        if charUtf8Len c = 1 then some (asciiUppercase c :: rest) else none
      else some (c :: rest)

/-- `fix_chord_name` with the byte-slice panic of the first pass made
explicit. -/
def fixChordNameChecked (s : List Char) : Option (List Char) :=
  (step1Checked s).map fun t =>
    replaceMaj 'A' 'J' (replaceMaj 'A' 'j' (replaceMaj 'a' 'j' (slashAux false t)))

end ChordFinder

namespace ChordFinder

theorem char_eq_of_toNat_eq {c d : Char} (h : c.toNat = d.toNat) : c = d := by
  have := congrArg Char.ofNat h
  rwa [Char.ofNat_toNat, Char.ofNat_toNat] at this

theorem isAG_iff {c : Char} : isAG c = true ↔ 97 ≤ c.toNat ∧ c.toNat ≤ 103 := by
  simp [isAG]

theorem isAG_cases {c : Char} (h : isAG c = true) :
    c = 'a' ∨ c = 'b' ∨ c = 'c' ∨ c = 'd' ∨ c = 'e' ∨ c = 'f' ∨ c = 'g' := by
  have hb := isAG_iff.mp h
  have hv : c.toNat = 97 ∨ c.toNat = 98 ∨ c.toNat = 99 ∨ c.toNat = 100 ∨
      c.toNat = 101 ∨ c.toNat = 102 ∨ c.toNat = 103 := by omega
  rcases hv with hv | hv | hv | hv | hv | hv | hv
  · exact Or.inl (char_eq_of_toNat_eq hv)
  · exact Or.inr (Or.inl (char_eq_of_toNat_eq hv))
  · exact Or.inr (Or.inr (Or.inl (char_eq_of_toNat_eq hv)))
  · exact Or.inr (Or.inr (Or.inr (Or.inl (char_eq_of_toNat_eq hv))))
  · exact Or.inr (Or.inr (Or.inr (Or.inr (Or.inl (char_eq_of_toNat_eq hv)))))
  · exact Or.inr (Or.inr (Or.inr (Or.inr (Or.inr (Or.inl (char_eq_of_toNat_eq hv))))))
  · exact Or.inr (Or.inr (Or.inr (Or.inr (Or.inr (Or.inr (char_eq_of_toNat_eq hv))))))

theorem isAG_asciiUppercase {c : Char} (h : isAG c = true) :
    isAG (asciiUppercase c) = false := by
  rcases isAG_cases h with h | h | h | h | h | h | h <;> subst h <;> decide

theorem asciiUppercase_beq_slash {c : Char} (h : isAG c = true) :
    (asciiUppercase c == '/') = false := by
  rcases isAG_cases h with h | h | h | h | h | h | h <;> subst h <;> decide

theorem isAG_beq_slash {c : Char} (h : isAG c = true) : (c == '/') = false := by
  rcases isAG_cases h with h | h | h | h | h | h | h <;> subst h <;> decide

theorem asciiLowercase_asciiUppercase {c : Char} (h : isAG c = true) :
    asciiLowercase (asciiUppercase c) = asciiLowercase c := by
  rcases isAG_cases h with h | h | h | h | h | h | h <;> subst h <;> decide

-- Playback handle cache

theorem cacheRun_go {α : Type} :
    ∀ (xs l : List α), l.length ≤ MAX_HANDLES →
      List.foldl (fun acc h => playback_handle_add h acc) l xs
        = (l ++ xs).drop (l.length + xs.length - MAX_HANDLES) := by
  intro xs
  induction xs with
  | nil =>
      intro l hl
      have h0 : l.length + List.length ([] : List α) - MAX_HANDLES = 0 := by
        simp only [List.length_nil]
        omega
      rw [List.foldl_nil, List.append_nil, h0, List.drop_zero]
  | cons x xs ih =>
      intro l hl
      show List.foldl _ (playback_handle_add x l) xs = _
      by_cases hfull : MAX_HANDLES ≤ l.length
      · have hlen : l.length = MAX_HANDLES := le_antisymm hl hfull
        have hne : l ≠ [] := by
          intro hnil
          rw [hnil] at hlen
          simp [MAX_HANDLES] at hlen
        obtain ⟨a, l', rfl⟩ := List.exists_cons_of_ne_nil hne
        have hlen' : l'.length + 1 = MAX_HANDLES := by simpa using hlen
        have hadd : playback_handle_add x (a :: l') = l' ++ [x] := by
          unfold playback_handle_add
          rw [if_pos hfull]
          rfl
        rw [hadd, ih (l' ++ [x]) (by simp; omega)]
        have e1 : (l' ++ [x]) ++ xs = l' ++ x :: xs := by simp
        rw [e1]
        have e3 : (l' ++ [x]).length + xs.length - MAX_HANDLES = xs.length := by
          simp
          omega
        rw [e3]
        have e2 : (a :: l') ++ x :: xs = a :: (l' ++ x :: xs) := by simp
        rw [e2]
        have e4 : (a :: l').length + (x :: xs).length - MAX_HANDLES = xs.length + 1 := by
          simp
          omega
        rw [e4, List.drop_succ_cons]
      · have hadd : playback_handle_add x l = l ++ [x] := by
          simp [playback_handle_add, hfull]
        rw [hadd, ih (l ++ [x]) (by simp; omega)]
        have e1 : (l ++ [x]) ++ xs = l ++ x :: xs := by simp
        rw [e1]
        have e2 : (l ++ [x]).length + xs.length = l.length + (x :: xs).length := by
          simp
          omega
        rw [e2]

/-- Claim C2: inserting any sequence of handles into an initially empty cache
keeps the length at or below MAX_HANDLES at all times (the insertion sequence
is universally quantified, so every prefix of insertions is covered), and the
resulting cache is exactly the most recent `min length MAX_HANDLES` handles in
insertion order, the oldest entries having been dropped from the front. -/
theorem playback_cache_fifo (α : Type) (xs : List α) :
    cacheRun xs = xs.drop (xs.length - MAX_HANDLES) ∧
    (cacheRun xs).length = min xs.length MAX_HANDLES ∧
    (cacheRun xs).length ≤ MAX_HANDLES := by
  have h := cacheRun_go xs ([] : List α) (by simp)
  simp only [List.nil_append, List.length_nil, Nat.zero_add] at h
  refine ⟨h, ?_, ?_⟩
  · rw [cacheRun, h, List.length_drop]
    omega
  · rw [cacheRun, h, List.length_drop]
    omega

/-- Claim C6: a fretboard cell is enabled iff the chord pitch-class set is
empty or the cell note's pitch class belongs to it. -/
theorem is_enabled_iff (chord_pitches : List (Fin 12)) (note : Note) :
    is_enabled chord_pitches note = true ↔
      chord_pitches = [] ∨ note.pitch ∈ chord_pitches := by
  simp [is_enabled, List.isEmpty_iff]

/-- Claim C1 (code bug): `note_for_fret` calls `.unwrap()` on the decode, so
resolution does not return a fallible value; at fret 100 on the low open E
string the shifted identifier falls outside the representable range, the
decode fails and the source panics (`none` models that panic). -/
theorem note_for_fret_unwrap_panics : note_for_fret lowOpenE 100 = none := by decide

-- Note codec facts

theorem findSome_pow {k : Nat} :
    ∀ l : List Nat, k ∈ l →
      (l.findSome? fun j => if (2 : Nat) ^ k = 2 ^ j then some (noteOfPos j) else none)
        = some (noteOfPos k) := by
  intro l
  induction l with
  | nil => intro h; simp at h
  | cons j l' ih =>
      intro hmem
      by_cases hj : (2 : Nat) ^ k = 2 ^ j
      · have hkj : k = j := Nat.pow_right_injective (by omega) hj
        subst hkj
        rw [List.findSome?_cons, if_pos hj]
      · have hk : k ∈ l' := by
          rcases List.mem_cons.mp hmem with h | h
          · exact absurd (congrArg (2 ^ ·) h) hj
          · exact h
        rw [List.findSome?_cons, if_neg hj]
        exact ih hk

theorem fromId_pow {k : Nat} (hk : k < 128) : fromId (2 ^ k) = some (noteOfPos k) :=
  findSome_pow (List.range 128) (List.mem_range.mpr hk)

theorem semitoneUp_noteOfPos (k : Nat) : semitoneUp (noteOfPos k) = noteOfPos (k + 1) := by
  simp only [semitoneUp, noteOfPos, Note.mk.injEq, Fin.mk.injEq]
  constructor
  · omega
  · split
    · omega
    · omega

/-- Claim C7: within the representable range, resolving the same open string
at fret + 1 yields exactly the note one semitone above the note resolved at
fret, with octave roll-over. -/
theorem note_for_fret_semitone (s : Note) (fret : Nat)
    (h : 12 * s.octave + s.pitch.val + fret + 1 < 128) :
    note_for_fret s (fret + 1) = (note_for_fret s fret).map semitoneUp := by
  have e1 : noteId s * 2 ^ fret = 2 ^ (12 * s.octave + s.pitch.val + fret) := by
    rw [noteId, ← pow_add]
  have e2 : noteId s * 2 ^ (fret + 1) = 2 ^ (12 * s.octave + s.pitch.val + fret + 1) := by
    rw [noteId, ← pow_add]
    rfl
  have m1 : (2 : Nat) ^ (12 * s.octave + s.pitch.val + fret) % 2 ^ 128
      = 2 ^ (12 * s.octave + s.pitch.val + fret) :=
    Nat.mod_eq_of_lt (Nat.pow_lt_pow_right (by omega) (by omega))
  have m2 : (2 : Nat) ^ (12 * s.octave + s.pitch.val + fret + 1) % 2 ^ 128
      = 2 ^ (12 * s.octave + s.pitch.val + fret + 1) :=
    Nat.mod_eq_of_lt (Nat.pow_lt_pow_right (by omega) (by omega))
  rw [note_for_fret, note_for_fret, e1, e2, m1, m2,
    fromId_pow (by omega), fromId_pow (by omega), Option.map_some',
    semitoneUp_noteOfPos]

/-- Witness for claim C7 at the low open E string and fret 0. -/
theorem note_for_fret_semitone_witness :
    note_for_fret lowOpenE (0 + 1) = (note_for_fret lowOpenE 0).map semitoneUp :=
  note_for_fret_semitone lowOpenE 0 (by decide)

end ChordFinder

namespace ChordFinder

-- Occurrence facts

theorem occurs3_tail {x y a : Char} {l : List Char}
    (h : occurs3 x y (a :: l) = false) : occurs3 x y l = false := by
  rcases l with _ | ⟨b, _ | ⟨c, r⟩⟩
  · rfl
  · rfl
  · simp only [occurs3, Bool.or_eq_false_iff] at h
    exact h.2

theorem occurs3_maj_cons (x y : Char) (W : List Char) :
    occurs3 x y ('m' :: 'a' :: 'j' :: W) = occurs3 x y W := by
  rcases W with _ | ⟨w1, _ | ⟨w2, u⟩⟩
  · rfl
  · rfl
  · rfl

theorem replaceMaj_of_not_occurs {x y : Char} :
    ∀ t : List Char, occurs3 x y t = false → replaceMaj x y t = t := by
  intro t
  refine replaceMaj.induct x y
    (fun t => occurs3 x y t = false → replaceMaj x y t = t) ?_ ?_ ?_ t
  · intro a b c rest hcond ih h
    simp only [occurs3, hcond, Bool.true_or] at h
    exact Bool.noConfusion h
  · intro a b c rest hcond ih h
    simp only [replaceMaj]
    rw [if_neg hcond, ih (occurs3_tail h)]
  · intro s hs h
    rcases s with _ | ⟨a, _ | ⟨b, _ | ⟨c, rest⟩⟩⟩
    · rfl
    · rfl
    · rfl
    · exact (hs a b c rest rfl).elim

theorem replaceMaj_head (x y : Char) (t : List Char) :
    (replaceMaj x y t).head? = t.head? ∨ (replaceMaj x y t).head? = some 'm' := by
  rcases t with _ | ⟨a, _ | ⟨b, _ | ⟨c, rest⟩⟩⟩
  · exact Or.inl rfl
  · exact Or.inl rfl
  · exact Or.inl rfl
  · simp only [replaceMaj]
    by_cases hcond : (a == 'M' && b == x && c == y) = true
    · rw [if_pos hcond]
      exact Or.inr rfl
    · rw [if_neg hcond]
      exact Or.inl rfl

theorem replaceMaj_two {x y z w : Char} {t u : List Char}
    (h : replaceMaj x y t = z :: w :: u) :
    (z = 'm' ∧ w = 'a') ∨ (∃ t2, t = z :: t2 ∧ (w = 'm' ∨ t2.head? = some w)) := by
  rcases t with _ | ⟨a, _ | ⟨b, _ | ⟨c, rest⟩⟩⟩
  · exact List.noConfusion h
  · have he : replaceMaj x y [a] = [a] := rfl
    rw [he] at h
    simp at h
  · have he : replaceMaj x y [a, b] = [a, b] := rfl
    rw [he] at h
    injection h with h1 h2
    injection h2 with h2a h2b
    refine Or.inr ⟨[b], by rw [h1], Or.inr ?_⟩
    rw [List.head?_cons, h2a]
  · simp only [replaceMaj] at h
    by_cases hcond : (a == 'M' && b == x && c == y) = true
    · rw [if_pos hcond] at h
      injection h with h1 h2
      injection h2 with h2a h2b
      exact Or.inl ⟨h1.symm, h2a.symm⟩
    · rw [if_neg hcond] at h
      injection h with h1 h2
      subst h1
      have hhead : (replaceMaj x y (b :: c :: rest)).head? = some w := by
        rw [h2]
        rfl
      rcases replaceMaj_head x y (b :: c :: rest) with hh | hh
      · rw [hhead, List.head?_cons] at hh
        have hb : w = b := Option.some.inj hh
        exact Or.inr ⟨b :: c :: rest, rfl, Or.inr (by rw [List.head?_cons, hb])⟩
      · rw [hhead] at hh
        exact Or.inr ⟨b :: c :: rest, rfl, Or.inl (Option.some.inj hh)⟩

theorem occurs3_replaceMaj_self {x y : Char} (hx : x ≠ 'm') (hy : y ≠ 'm') :
    ∀ t : List Char, occurs3 x y (replaceMaj x y t) = false := by
  intro t
  refine replaceMaj.induct x y
    (fun t => occurs3 x y (replaceMaj x y t) = false) ?_ ?_ ?_ t
  · intro a b c rest hcond ih
    simp only [replaceMaj]
    rw [if_pos hcond, occurs3_maj_cons]
    exact ih
  · intro a b c rest hcond ih
    simp only [replaceMaj]
    rw [if_neg hcond]
    rcases hW : replaceMaj x y (b :: c :: rest) with _ | ⟨w1, _ | ⟨w2, u⟩⟩
    · rfl
    · rfl
    · have hWocc : occurs3 x y (w1 :: w2 :: u) = false := by
        rw [← hW]
        exact ih
      simp only [occurs3, hWocc, Bool.or_false]
      rcases replaceMaj_two hW with ⟨h1, _⟩ | ⟨t2, ht2, hw2⟩
      · have hxm : (w1 == x) = false := by
          rw [h1]
          exact beq_eq_false_iff_ne.mpr (Ne.symm hx)
        simp [hxm]
      · injection ht2 with hb ht2'
        rcases hw2 with hw2 | hw2
        · have hym : (w2 == y) = false := by
            rw [hw2]
            exact beq_eq_false_iff_ne.mpr (Ne.symm hy)
          simp [hym]
        · have hc : c = w2 := by
            rw [← ht2', List.head?_cons] at hw2
            exact Option.some.inj hw2
          subst hb
          subst hc
          cases hbe : (a == 'M' && b == x && c == y) with
          | false => rfl
          | true => exact absurd hbe hcond
  · intro s hs
    rcases s with _ | ⟨a, _ | ⟨b, _ | ⟨c, rest⟩⟩⟩
    · rfl
    · rfl
    · rfl
    · exact (hs a b c rest rfl).elim

theorem occurs3_replaceMaj_other {x y z w : Char} (hz : z ≠ 'm') (hw : w ≠ 'm') :
    ∀ t : List Char, occurs3 z w t = false → occurs3 z w (replaceMaj x y t) = false := by
  intro t
  refine replaceMaj.induct x y
    (fun t => occurs3 z w t = false → occurs3 z w (replaceMaj x y t) = false) ?_ ?_ ?_ t
  · intro a b c rest hcond ih h
    simp only [replaceMaj]
    rw [if_pos hcond, occurs3_maj_cons]
    exact ih (occurs3_tail (occurs3_tail (occurs3_tail h)))
  · intro a b c rest hcond ih h
    simp only [replaceMaj]
    rw [if_neg hcond]
    have h2 : occurs3 z w (b :: c :: rest) = false := occurs3_tail h
    rcases hW : replaceMaj x y (b :: c :: rest) with _ | ⟨w1, _ | ⟨w2, u⟩⟩
    · rfl
    · rfl
    · have hWocc : occurs3 z w (w1 :: w2 :: u) = false := by
        rw [← hW]
        exact ih h2
      simp only [occurs3, hWocc, Bool.or_false]
      rcases replaceMaj_two hW with ⟨h1, _⟩ | ⟨t2, ht2, hw2⟩
      · have hzm : (w1 == z) = false := by
          rw [h1]
          exact beq_eq_false_iff_ne.mpr (Ne.symm hz)
        simp [hzm]
      · injection ht2 with hb ht2'
        rcases hw2 with hw2 | hw2
        · have hwm : (w2 == w) = false := by
            rw [hw2]
            exact beq_eq_false_iff_ne.mpr (Ne.symm hw)
          simp [hwm]
        · have hc : c = w2 := by
            rw [← ht2', List.head?_cons] at hw2
            exact Option.some.inj hw2
          subst hb
          subst hc
          simp only [occurs3, Bool.or_eq_false_iff] at h
          exact h.1
  · intro s hs h
    rcases s with _ | ⟨a, _ | ⟨b, _ | ⟨c, rest⟩⟩⟩
    · rfl
    · rfl
    · rfl
    · exact (hs a b c rest rfl).elim

end ChordFinder

namespace ChordFinder

theorem isAG_m : isAG 'm' = false := by decide

theorem slashOK_cons (fl : Bool) (d : Char) (l : List Char) :
    slashOK fl (d :: l) = (!(fl && isAG d) && slashOK (d == '/') l) := rfl

theorem slashAux_of_slashOK : ∀ (t : List Char) (b : Bool),
    slashOK b t = true → slashAux b t = t := by
  intro t
  induction t with
  | nil => intro b h; rfl
  | cons c rest ih =>
      intro b h
      rw [slashOK_cons, Bool.and_eq_true] at h
      obtain ⟨h1, h2⟩ := h
      have hcond : (b && isAG c) = false := by
        cases hbb : (b && isAG c)
        · rfl
        · rw [hbb] at h1
          exact Bool.noConfusion h1
      simp only [slashAux]
      rw [if_neg (by simp [hcond]), ih (c == '/') h2]

theorem slashOK_slashAux : ∀ (t : List Char) (b : Bool),
    slashOK b (slashAux b t) = true := by
  intro t
  induction t with
  | nil => intro b; rfl
  | cons c rest ih =>
      intro b
      by_cases hb : (b && isAG c) = true
      · have hAG : isAG c = true := by
          have hb' := hb
          rw [Bool.and_eq_true] at hb'
          exact hb'.2
        simp only [slashAux]
        rw [if_pos hb, slashOK_cons, Bool.and_eq_true]
        constructor
        · simp [isAG_asciiUppercase hAG]
        · rw [asciiUppercase_beq_slash hAG, isAG_beq_slash hAG]
          exact ih false
      · simp only [slashAux]
        rw [if_neg hb, slashOK_cons, Bool.and_eq_true]
        constructor
        · have : (b && isAG c) = false := by
            cases hbb : (b && isAG c)
            · rfl
            · exact absurd hbb hb
          simp [this]
        · exact ih (c == '/')

theorem slashOK_replaceMaj {x y : Char} (_hx : (x == '/') = false)
    (hy : (y == '/') = false) :
    ∀ (t : List Char) (b : Bool),
      slashOK b t = true → slashOK b (replaceMaj x y t) = true := by
  intro t
  refine replaceMaj.induct x y
    (fun t => ∀ b : Bool, slashOK b t = true → slashOK b (replaceMaj x y t) = true)
    ?_ ?_ ?_ t
  · intro a b c rest hcond ih b0 h
    have hcond' := hcond
    simp only [Bool.and_eq_true, beq_iff_eq] at hcond'
    obtain ⟨⟨ha, hb⟩, hc⟩ := hcond'
    rw [slashOK_cons, Bool.and_eq_true] at h
    obtain ⟨h1, h⟩ := h
    rw [slashOK_cons, Bool.and_eq_true] at h
    obtain ⟨h2, h⟩ := h
    rw [slashOK_cons, Bool.and_eq_true] at h
    obtain ⟨h3, h4⟩ := h
    rw [hc, hy] at h4
    simp only [replaceMaj]
    rw [if_pos hcond]
    rw [slashOK_cons, Bool.and_eq_true]
    refine ⟨by simp [isAG_m], ?_⟩
    rw [slashOK_cons, Bool.and_eq_true]
    refine ⟨by decide, ?_⟩
    rw [slashOK_cons, Bool.and_eq_true]
    refine ⟨by decide, ?_⟩
    rw [show (('j' : Char) == '/') = false from by decide]
    exact ih false h4
  · intro a b c rest hcond ih b0 h
    simp only [replaceMaj]
    rw [if_neg hcond]
    rw [slashOK_cons, Bool.and_eq_true] at h
    obtain ⟨h1, h2⟩ := h
    rw [slashOK_cons, Bool.and_eq_true]
    exact ⟨h1, ih (a == '/') h2⟩
  · intro s hs b0 h
    rcases s with _ | ⟨a, _ | ⟨b, _ | ⟨c, rest⟩⟩⟩
    · exact h
    · exact h
    · exact h
    · exact (hs a b c rest rfl).elim

theorem slashAux_false_head (t : List Char) : (slashAux false t).head? = t.head? := by
  cases t with
  | nil => rfl
  | cons c rest => simp [slashAux]

theorem step1_head {s : List Char} {h : Char}
    (hh : (step1 s).head? = some h) : isAG h = false := by
  cases s with
  | nil => exact Option.noConfusion hh
  | cons c rest =>
      simp only [step1] at hh
      by_cases hc : isAG c = true
      · rw [if_pos hc, List.head?_cons] at hh
        have he : h = asciiUppercase c := (Option.some.inj hh).symm
        rw [he]
        exact isAG_asciiUppercase hc
      · rw [if_neg hc, List.head?_cons] at hh
        have he : h = c := (Option.some.inj hh).symm
        rw [he]
        cases hAG : isAG c
        · rfl
        · exact absurd hAG hc

theorem fix_chord_name_no_occ (s : List Char) :
    occurs3 'a' 'j' (fix_chord_name s) = false ∧
    occurs3 'A' 'j' (fix_chord_name s) = false ∧
    occurs3 'A' 'J' (fix_chord_name s) = false := by
  unfold fix_chord_name
  refine ⟨?_, ?_, ?_⟩
  · exact occurs3_replaceMaj_other (by decide) (by decide) _
      (occurs3_replaceMaj_other (by decide) (by decide) _
        (occurs3_replaceMaj_self (by decide) (by decide) _))
  · exact occurs3_replaceMaj_other (by decide) (by decide) _
      (occurs3_replaceMaj_self (by decide) (by decide) _)
  · exact occurs3_replaceMaj_self (by decide) (by decide) _

theorem fix_chord_name_head {s : List Char} {h : Char}
    (hh : (fix_chord_name s).head? = some h) : isAG h = false := by
  unfold fix_chord_name at hh
  rcases replaceMaj_head 'A' 'J'
      (replaceMaj 'A' 'j' (replaceMaj 'a' 'j' (slashAux false (step1 s)))) with h3 | h3
  · rw [h3] at hh
    rcases replaceMaj_head 'A' 'j'
        (replaceMaj 'a' 'j' (slashAux false (step1 s))) with h2 | h2
    · rw [h2] at hh
      rcases replaceMaj_head 'a' 'j' (slashAux false (step1 s)) with h1 | h1
      · rw [h1, slashAux_false_head] at hh
        exact step1_head hh
      · rw [h1] at hh
        have he : h = 'm' := Option.some.inj hh.symm
        rw [he]
        exact isAG_m
    · rw [h2] at hh
      have he : h = 'm' := Option.some.inj hh.symm
      rw [he]
      exact isAG_m
  · rw [h3] at hh
    have he : h = 'm' := Option.some.inj hh.symm
    rw [he]
    exact isAG_m

theorem fix_chord_name_slashOK (s : List Char) :
    slashOK false (fix_chord_name s) = true := by
  unfold fix_chord_name
  apply slashOK_replaceMaj (by decide) (by decide)
  apply slashOK_replaceMaj (by decide) (by decide)
  apply slashOK_replaceMaj (by decide) (by decide)
  exact slashOK_slashAux (step1 s) false

/-- Claim C3: the chord-name normalizer `fix_chord_name` is idempotent:
applying it twice gives the same result as applying it once, for every
input string. -/
theorem fix_chord_name_idem (s : List Char) :
    fix_chord_name (fix_chord_name s) = fix_chord_name s := by
  have hno := fix_chord_name_no_occ s
  have hstep : step1 (fix_chord_name s) = fix_chord_name s := by
    cases hfc : fix_chord_name s with
    | nil => rfl
    | cons h rest =>
        have hAG : isAG h = false := fix_chord_name_head (by rw [hfc, List.head?_cons])
        simp only [step1]
        rw [if_neg (by simp [hAG])]
  have hslash : slashAux false (fix_chord_name s) = fix_chord_name s :=
    slashAux_of_slashOK _ false (fix_chord_name_slashOK s)
  show replaceMaj 'A' 'J' (replaceMaj 'A' 'j' (replaceMaj 'a' 'j'
      (slashAux false (step1 (fix_chord_name s))))) = fix_chord_name s
  rw [hstep, hslash, replaceMaj_of_not_occurs _ hno.1,
    replaceMaj_of_not_occurs _ hno.2.1, replaceMaj_of_not_occurs _ hno.2.2]

/-- Claim C4 counterexample: the case-insensitive casing "MaJ" of "maj" is
not replaced by the normalizer: the output still contains the occurrence
"MaJ" and differs from "maj". -/
theorem fix_chord_name_MaJ_unreplaced :
    fix_chord_name "MaJ".toList = "MaJ".toList ∧
    occurs3 'a' 'J' (fix_chord_name "MaJ".toList) = true ∧
    "MaJ".toList ≠ "maj".toList := by decide

/-- Claim C4 (amended): the normalizer replaces every occurrence of the three
casings actually handled by the code, "Maj", "MAj" and "MAJ", with "maj":
no occurrence of any of them remains in the output, for every input. The
other casings ("maj" itself is already lowercase; "mAj", "maJ", "mAJ" and
"MaJ" are not patterns of the code) are not rewritten. -/
theorem fix_chord_name_replaces_M_casings (s : List Char) :
    occurs3 'a' 'j' (fix_chord_name s) = false ∧
    occurs3 'A' 'j' (fix_chord_name s) = false ∧
    occurs3 'A' 'J' (fix_chord_name s) = false :=
  fix_chord_name_no_occ s

end ChordFinder

namespace ChordFinder

theorem specAux_slashAux : ∀ (t : List Char) (c : Char),
    specCaseRulesAux (some c) t = slashAux (c == '/') t := by
  intro t
  induction t with
  | nil => intro c; rfl
  | cons d rest ih =>
      intro c
      by_cases hc : c = '/' <;> by_cases hd : isAG d = true
      · subst hc
        simp [specCaseRulesAux, slashAux, hd, ih]
      · subst hc
        have hd0 : isAG d = false := by
          cases h2 : isAG d
          · rfl
          · exact absurd h2 hd
        simp [specCaseRulesAux, slashAux, hd0, ih]
      · have hc0 : (c == '/') = false := beq_eq_false_iff_ne.mpr hc
        simp [specCaseRulesAux, slashAux, hc, hc0, hd, ih]
      · have hc0 : (c == '/') = false := beq_eq_false_iff_ne.mpr hc
        have hd0 : isAG d = false := by
          cases h2 : isAG d
          · rfl
          · exact absurd h2 hd
        simp [specCaseRulesAux, slashAux, hc, hc0, hd0, ih]

/-- Claim C8: the first two passes of the normalizer implement exactly the
stated case rules (uppercase the first character iff it is a lowercase letter
in a..g, uppercase a character immediately following a slash iff it is a
lowercase letter in a..g, all other characters pass through this stage
unchanged, as expressed by the reference function built from the claim's
words), and the four end-to-end examples of the spec hold. -/
theorem fix_chord_name_case_rules :
    (∀ s : List Char, slashAux false (step1 s) = specCaseRules s) ∧
    fix_chord_name "cmaj7".toList = "Cmaj7".toList ∧
    fix_chord_name "C/g".toList = "C/G".toList ∧
    fix_chord_name "CMAJ7".toList = "Cmaj7".toList ∧
    fix_chord_name "".toList = "".toList := by
  refine ⟨?_, by decide, by decide, by decide, by decide⟩
  intro s
  cases s with
  | nil => rfl
  | cons c rest =>
      show slashAux false (step1 (c :: rest)) = specCaseRulesAux none (c :: rest)
      by_cases hAG : isAG c = true
      · simp only [step1, specCaseRulesAux]
        rw [if_pos hAG, if_pos (by simp [hAG])]
        simp only [slashAux]
        rw [if_neg (by simp)]
        congr 1
        rw [asciiUppercase_beq_slash hAG, specAux_slashAux rest c, isAG_beq_slash hAG]
      · have hAG0 : isAG c = false := by
          cases h2 : isAG c
          · rfl
          · exact absurd h2 hAG
        simp only [step1, specCaseRulesAux]
        rw [if_neg hAG, if_neg (by simp [hAG0])]
        simp only [slashAux]
        rw [if_neg (by simp)]
        congr 1
        rw [specAux_slashAux rest c]

/-- Claim C9: the normalizer is total on every input, including multi-byte
first characters: the variant that models the byte slice after the first
character always succeeds and agrees with the normalizer (the slice can only
happen after a one-byte `a..g` first character, so it never splits a
character and never panics). -/
theorem fix_chord_name_total (s : List Char) :
    fixChordNameChecked s = some (fix_chord_name s) := by
  cases s with
  | nil => rfl
  | cons c rest =>
      by_cases hAG : isAG c = true
      · have hlen : charUtf8Len c = 1 := by
          have hb := isAG_iff.mp hAG
          unfold charUtf8Len
          rw [if_pos (by omega)]
        simp [fixChordNameChecked, step1Checked, fix_chord_name, step1, hAG, hlen]
      · have hAG0 : isAG c = false := by
          cases h2 : isAG c
          · rfl
          · exact absurd h2 hAG
        simp [fixChordNameChecked, step1Checked, fix_chord_name, step1, hAG0]

theorem map_lower_step1 (s : List Char) :
    (step1 s).map asciiLowercase = s.map asciiLowercase := by
  cases s with
  | nil => rfl
  | cons c rest =>
      by_cases hAG : isAG c = true
      · simp only [step1]
        rw [if_pos hAG]
        simp only [List.map_cons]
        rw [asciiLowercase_asciiUppercase hAG]
      · simp only [step1]
        rw [if_neg hAG]

theorem map_lower_slashAux : ∀ (t : List Char) (b : Bool),
    (slashAux b t).map asciiLowercase = t.map asciiLowercase := by
  intro t
  induction t with
  | nil => intro b; rfl
  | cons c rest ih =>
      intro b
      simp only [slashAux]
      by_cases hb : (b && isAG c) = true
      · rw [if_pos hb]
        simp only [List.map_cons]
        have hAG : isAG c = true := by
          have hb' := hb
          rw [Bool.and_eq_true] at hb'
          exact hb'.2
        rw [asciiLowercase_asciiUppercase hAG, ih (c == '/')]
      · rw [if_neg hb]
        simp only [List.map_cons]
        rw [ih (c == '/')]

theorem map_lower_replaceMaj {x y : Char} (hx : asciiLowercase x = 'a')
    (hy : asciiLowercase y = 'j') :
    ∀ t : List Char, (replaceMaj x y t).map asciiLowercase = t.map asciiLowercase := by
  intro t
  refine replaceMaj.induct x y
    (fun t => (replaceMaj x y t).map asciiLowercase = t.map asciiLowercase) ?_ ?_ ?_ t
  · intro a b c rest hcond ih
    have hcond' := hcond
    simp only [Bool.and_eq_true, beq_iff_eq] at hcond'
    obtain ⟨⟨ha, hb⟩, hc⟩ := hcond'
    simp only [replaceMaj]
    rw [if_pos hcond]
    simp only [List.map_cons]
    rw [ih, ha, hb, hc, hx, hy]
    rw [show asciiLowercase 'm' = 'm' from by decide,
      show asciiLowercase 'a' = 'a' from by decide,
      show asciiLowercase 'j' = 'j' from by decide,
      show asciiLowercase 'M' = 'm' from by decide]
  · intro a b c rest hcond ih
    simp only [replaceMaj]
    rw [if_neg hcond]
    simp only [List.map_cons] at ih ⊢
    rw [ih]
  · intro s hs
    rcases s with _ | ⟨a, _ | ⟨b, _ | ⟨c, rest⟩⟩⟩
    · rfl
    · rfl
    · rfl
    · exact (hs a b c rest rfl).elim

/-- Claim C10: the normalizer preserves the number of characters and only
re-cases characters in place: mapping every character to its ASCII lowercase
gives the same list before and after normalization. -/
theorem fix_chord_name_length (s : List Char) :
    (fix_chord_name s).length = s.length ∧
    (fix_chord_name s).map asciiLowercase = s.map asciiLowercase := by
  have hmap : (fix_chord_name s).map asciiLowercase = s.map asciiLowercase := by
    unfold fix_chord_name
    rw [map_lower_replaceMaj (by decide) (by decide),
      map_lower_replaceMaj (by decide) (by decide),
      map_lower_replaceMaj (by decide) (by decide),
      map_lower_slashAux, map_lower_step1]
  refine ⟨?_, hmap⟩
  have hlen := congrArg List.length hmap
  simpa using hlen

/-- Claim C5 counterexample: the generated fretboard has 16 cells per string
(frets 0 to 15), 96 cells in all, not 6 x 17 = 102; fret 16 is never
generated. -/
theorem fretboard_cell_count_16 :
    (fretboardGrid.map List.length).sum = 96 ∧
    (List.range MAX_FRET).contains 16 = false ∧
    (96 : Nat) ≠ 6 * 17 := by decide

/-- Claim C5 (amended): fretboard generation for the reference 6-string
tuning produces exactly 6 x 16 cells (string in [0,6), fret in [0,16),
MAX_FRET = 16), each cell's note is defined (here even resolvable), and
the fret-label lookup is total on [0, MAX_FRET) with the marker labels of
the source. -/
theorem fretboard_grid_spec :
    fretboardGrid.length = 6 ∧
    fretboardGrid.map List.length = List.replicate 6 MAX_FRET ∧
    fretboardGrid.all (fun row => row.all Option.isSome) = true ∧
    (List.range MAX_FRET).map fret_label
      = ["Open", "", "", "3", "", "5", "", "7", "", "9", "", "", "12", "", "", "15"] := by
  decide

end ChordFinder
